import Mathlib

/-!
Verification development for the docker-minecraft mod-manager server
(`src/unnamed/part_000`, `src/mod-manager/server.js`).

The server is a small Express application.  Its logic relevant to the
specification claims is embedded shallowly below:

* filenames and path strings are `List Char` (`Name`);
* `path.resolve` / `path.join` are modelled as segment normalisation of
  already-split POSIX paths (`resolveAbs`, `joinPath`);
* JavaScript `String.prototype.startsWith` / `endsWith` are `startsWithL` /
  `endsWithL`; `String.prototype.replace` (which replaces only the FIRST
  occurrence of a plain-string pattern) is `replaceFirst`;
* the filesystem is an association list from absolute path (or bare mod
  filename, for the mods directory) to stored data; `fs.renameSync` has
  POSIX overwrite semantics (`renameStore`);
* each HTTP handler becomes a pure function from request data and the
  filesystem to a result and the new filesystem.
-/

set_option maxHeartbeats 4000000
set_option maxRecDepth 8192
set_option synthInstance.maxHeartbeats 400000

namespace MCManager

/-- A filename or path string, as a list of characters. -/
abbrev Name := List Char

/-- File contents, as a list of byte values. -/
abbrev Bytes := List Nat

/-- JavaScript `s.startsWith(pat)`: the first `pat.length` characters of `s`
are exactly `pat`. -/
def startsWithL (pat s : Name) : Bool :=
  s.take pat.length == pat

/-- JavaScript `s.endsWith(suf)`: the last `suf.length` characters of `s`
are exactly `suf`. -/
def endsWithL (suf s : Name) : Bool :=
  s.drop (s.length - suf.length) == suf

/-- JavaScript `s.replace(pat, rep)` for a plain-string nonempty `pat`:
replaces only the first occurrence of `pat` in `s` (the whole string is
returned unchanged when `pat` does not occur). -/
def replaceFirst : Name → Name → Name → Name
  | [], _, _ => []
  | c :: cs, pat, rep =>
    if startsWithL pat (c :: cs) then rep ++ (c :: cs).drop pat.length
    else c :: replaceFirst cs pat rep

/-! ### Path arithmetic (`path.resolve`, `path.join`, `safePath`) -/

/-- One step of POSIX path-segment normalisation: empty and `.` segments are
skipped, `..` pops the last segment (staying at the root when empty), any
other segment is appended. -/
def normStep (acc : List Name) (seg : Name) : List Name :=
  if seg = [] ∨ seg = ['.'] then acc
  else if seg = ['.', '.'] then acc.dropLast
  else acc ++ [seg]

/-- Normalise a list of raw path segments (Node's path normalisation for an
absolute path). -/
def normSegs (segs : List Name) : List Name :=
  segs.foldl normStep []

/-- Render a segment list as an absolute POSIX path string: `[]` is `"/"`,
`["app","data"]` is `"/app/data"`. -/
def pathStr (segs : List Name) : Name :=
  '/' :: List.intercalate ['/'] segs

/-- `path.resolve(base, rel)` where `base` is an already-normalised absolute
directory (given as segments): an absolute `rel` overrides `base`, otherwise
`rel` is split on `/` and normalised against `base`. -/
def resolveAbs (base : List Name) (rel : Name) : List Name :=
  match rel with
  | '/' :: _ => normSegs (rel.splitOn '/')
  | _ => normSegs (base ++ rel.splitOn '/')

/-- `path.join(base, rel)` for an absolute `base` (as segments): concatenate
and normalise. -/
def joinPath (base : List Name) (rel : Name) : Name :=
  pathStr (normSegs (base ++ rel.splitOn '/'))

/-- The server's `safePath(base, rel)` (part_000 lines 133-137): resolve
`rel` against `base` and accept the result iff the resolved string has the
resolved base string as a plain string prefix (`full.startsWith(resolve(base))`).
Note this is a naive string-prefix test, with no path-separator boundary. -/
def safePath (root : List Name) (rel : Name) : Option Name :=
  let full := pathStr (resolveAbs root rel)
  if startsWithL (pathStr root) full then some full else none

/-- Modelled from the spec: the boundary-aware containment predicate the
specification demands of the Path Confiner — the resolved path is accepted
only when it is lexically equal to the root or has the root plus a path
separator as a literal prefix.  (This predicate is *not* what the code
implements; it is stated here for comparison with `safePath`.) -/
def specConfined (rootStr p : Name) : Bool :=
  p == rootStr || startsWithL (rootStr ++ ['/']) p

/-- `path.basename(p)`: the part of `p` after the last `/`. -/
def basename (p : Name) : Name :=
  (p.reverse.takeWhile (fun c => ¬ (c = '/'))).reverse

/-! ### Mod filenames and the toggle computation -/

/-- The archive extension `".jar"`. -/
def jarSuf : Name := ['.', 'j', 'a', 'r']

/-- The disabled-marker suffix `".disabled"`. -/
def disMark : Name := ['.', 'd', 'i', 's', 'a', 'b', 'l', 'e', 'd']

/-- The disabled form's full suffix `".jar.disabled"`. -/
def disSuf : Name := ['.', 'j', 'a', 'r', '.', 'd', 'i', 's', 'a', 'b', 'l', 'e', 'd']

/-- The new-name computation of the toggle handler (part_000 lines 124-127):
a name ending in `".jar.disabled"` has its FIRST occurrence of
`".jar.disabled"` replaced by `".jar"` (JavaScript `replace`); otherwise a
name ending in `".jar"` gets `".disabled"` appended; any other name is not a
mod file (`none`). -/
def toggleName (n : Name) : Option Name :=
  if endsWithL disSuf n then some (replaceFirst n disSuf jarSuf)
  else if endsWithL jarSuf n then some (n ++ disMark)
  else none

/-- Every occurrence of `".jar.disabled"` in `n` starts at the suffix
position `n.length - 13` (equivalently: there is no interior occurrence). -/
def onlySuffixOcc (n : Name) : Bool :=
  (List.range n.length).all fun i =>
    !(startsWithL disSuf (n.drop i)) || (i + disSuf.length == n.length)

/-- `path.extname(n)` for a bare filename: the part of `n` from its last
dot, or `""` when `n` has no dot or the last dot is its first character
(hidden file).  Matches Node for every filename used in this development. -/
def extname (n : Name) : Name :=
  if (n.reverse.takeWhile (fun c => ¬ (c = '.'))).length + 1 < n.length
  then '.' :: (n.reverse.takeWhile (fun c => ¬ (c = '.'))).reverse
  else []

/-- The mod-upload file filter (part_000 lines 41-47):
`path.extname(file.originalname).toLowerCase() === ".jar"`. -/
def modUploadAccepts (n : Name) : Bool :=
  ((extname n).map Char.toLower) == jarSuf

/-- The mod-listing filter (part_000 line 100):
`f.endsWith(".jar") || f.endsWith(".jar.disabled")`. -/
def modListed (n : Name) : Bool :=
  endsWithL jarSuf n || endsWithL disSuf n

/-- The derived enabled flag of a listed mod (part_000 line 103):
`f.endsWith(".jar")`. -/
def modEnabled (n : Name) : Bool :=
  endsWithL jarSuf n

/-! ### Filesystem model -/

/-- A directory's (or subtree's) contents: an association list from name to
stored value. -/
abbrev Store (β : Type) := List (Name × β)

/-- Look up the value stored under key `m`. -/
def lookupS {β : Type} : Store β → Name → Option β
  | [], _ => none
  | (k, v) :: fs, m => if k = m then some v else lookupS fs m

/-- `fs.existsSync` on the store. -/
def existsS {β : Type} (fs : Store β) (m : Name) : Bool :=
  (lookupS fs m).isSome

/-- Remove every entry stored under key `m` (`fs.unlinkSync`). -/
def removeS {β : Type} (fs : Store β) (m : Name) : Store β :=
  fs.filter fun e => !(e.1 == m)

/-- `fs.renameSync(o, n)` with POSIX semantics: when `o` exists, its data
moves to `n`, silently replacing any previous entry named `n`. -/
def renameStore {β : Type} (fs : Store β) (o n : Name) : Store β :=
  match lookupS fs o with
  | none => fs
  | some d => (fs.filter fun e => !(e.1 == o) && !(e.1 == n)) ++ [(n, d)]

/-! ### Mod store handlers -/

/-- Result of the toggle handler. -/
inductive ToggleResult where
  | notFound
  | notAMod
  | renamed (newName : Name)
deriving DecidableEq, Repr

/-- The `PATCH /api/mods/:name/toggle` handler (part_000 lines 120-130):
404 when the file is absent, 400 when the name is not a mod file, otherwise
`fs.renameSync(path, newPath)` with the toggled name. -/
def toggleMod (fs : Store Bytes) (name : Name) : ToggleResult × Store Bytes :=
  if (existsS fs name) = false then (.notFound, fs)
  else
    match toggleName name with
    | some newName => (.renamed newName, renameStore fs name newName)
    | none => (.notAMod, fs)

/-- Result of the mod delete handler. -/
inductive DeleteModResult where
  | notFound
  | deleted (p : Name)
deriving DecidableEq, Repr

/-- The `DELETE /api/mods/:name` handler (part_000 lines 113-118): the name
is joined to the mod root with `path.join` — with NO check for path
separators in the name — and the joined path is unlinked if it exists.
The store here is keyed by absolute path, `root` being the mod root. -/
def deleteModHandler (root : List Name) (fs : Store Bytes) (name : Name) :
    DeleteModResult × Store Bytes :=
  let p := joinPath root name
  if existsS fs p then (.deleted p, removeS fs p) else (.notFound, fs)

/-! ### File tree manager -/

/-- A node of the general data directory: a regular file with bytes, or a
directory. -/
inductive DNode where
  | file (bs : Bytes)
  | dir
deriving DecidableEq, Repr

/-- Result of the file read handler. -/
inductive ReadResult where
  | invalidPath
  | notAFile
  | tooLarge
  | notText
  | content (text : Name) (filename : Name)
deriving DecidableEq, Repr

/-- The read-size cap: `1024 * 512` bytes. -/
def sizeCap : Nat := 1024 * 512

/-- The `GET /api/files/read` handler (part_000 lines 163-177); `decode`
models the UTF-8 text decoding attempted by `fs.readFileSync(p, "utf-8")`
(`none` = the catch branch, "Cannot read file (binary?)"). -/
def readFileHandler (decode : Bytes → Option Name) (root : List Name)
    (fs : Store DNode) (rel : Name) : ReadResult :=
  match safePath root rel with
  | none => .invalidPath
  | some p =>
    match lookupS fs p with
    | none => .notAFile
    | some .dir => .notAFile
    | some (.file bs) =>
      if sizeCap < bs.length then .tooLarge
      else
        match decode bs with
        | some t => .content t (basename p)
        | none => .notText

/-- Result of the rename handler. -/
inductive RenameResult where
  | invalidPath
  | notFound
  | alreadyExists
  | renamed
deriving DecidableEq, Repr

/-- The `POST /api/files/rename` handler (part_000 lines 222-234): both
paths go through `safePath` before any filesystem access; then 404 when the
old path is absent, 409 when the new path already exists, otherwise
`fs.renameSync`.  (Moving a directory's children along with it is not
modelled; the claims below only concern the error branches, which return
before any mutation.) -/
def renameHandler (root : List Name) (fs : Store DNode) (oldRel newRel : Name) :
    RenameResult × Store DNode :=
  match safePath root oldRel, safePath root newRel with
  | some o, some n =>
    if (existsS fs o) = false then (.notFound, fs)
    else if existsS fs n then (.alreadyExists, fs)
    else (.renamed, renameStore fs o n)
  | _, _ => (.invalidPath, fs)

/-! ### Directory listing sort -/

/-- One listing entry (part_000 lines 146-154). -/
structure Entry where
  name : Name
  isDirectory : Bool
  size : Nat
  modified : Nat
deriving DecidableEq, Repr

/-- The comparator of part_000 line 155 as a `≤`-test, parametric in the
name comparison `nle` (modelling `localeCompare(...) <= 0`): entries of the
same kind compare by name; a directory sorts before a file. -/
def entryLE (nle : Name → Name → Bool) (a b : Entry) : Bool :=
  if a.isDirectory == b.isDirectory then nle a.name b.name
  else if a.isDirectory then true else false

/-- `items.sort(comparator)`: JavaScript `Array.prototype.sort` with a
consistent comparator returns a permutation of the input sorted by the
comparator; it is modelled as an insertion sort. -/
def sortEntries (nle : Name → Name → Bool) (l : List Entry) : List Entry :=
  List.insertionSort (fun a b => entryLE nle a b = true) l

/-- Code-point lexicographic order on names: the behaviour of
`localeCompare` on the names appearing in this development (distinct plain
lowercase ASCII names). -/
def lexLe : Name → Name → Bool
  | [], _ => true
  | _ :: _, [] => false
  | a :: as, b :: bs => if a = b then lexLe as bs else decide (a < b)

/-! ### Server status probe -/

/-- The fields extracted from a successful `minecraft-server-util` status
query (part_000 lines 72-78). -/
structure StatusSuccess where
  playersOnline : Nat
  playersMax : Nat
  version : Name
  motd : Name
  latency : Nat
deriving DecidableEq, Repr

/-- Outcome of the one status query: success, or any failure (timeout,
connection refused, protocol error) carrying its error message. -/
inductive ProbeOutcome where
  | ok (s : StatusSuccess)
  | err (msg : Name)
deriving DecidableEq, Repr

/-- The HTTP response produced by the status handler. -/
structure StatusResponse where
  httpStatus : Nat
  online : Bool
  players : Option (Nat × Nat)
  version : Option Name
  motd : Option Name
  latency : Option Nat
  error : Option Name
deriving DecidableEq, Repr

/-- The `GET /api/status` handler (part_000 lines 69-82): the entire query
is wrapped in try/catch, and both branches answer with `res.json` (HTTP
200) — a success snapshot, or `online:false` with the error message. -/
def statusHandler : ProbeOutcome → StatusResponse
  | .ok s =>
    { httpStatus := 200, online := true,
      players := some (s.playersOnline, s.playersMax),
      version := some s.version, motd := some s.motd,
      latency := some s.latency, error := none }
  | .err m =>
    { httpStatus := 200, online := false, players := none,
      version := none, motd := none, latency := none, error := some m }

/-! ### Concrete configuration and fixtures used by the theorems -/

/-- The default general-files root `/app/data`, as segments. -/
def dataRootSegs : List Name := [("app".toList), ("data".toList)]

/-- A representative mods root `/app/mods`, as segments. -/
def modsRootSegs : List Name := [("app".toList), ("mods".toList)]

/-- A mods directory holding both forms of the same base name. -/
def modsBothForms : Store Bytes :=
  [(("x.jar").toList, [1]), (("x.jar.disabled").toList, [2])]

/-- A mods directory hit by the toggle frame witness. -/
def modsW : Store Bytes :=
  [(("coolmod.jar").toList, [1]), (("other.jar").toList, [2])]

/-- A file of exactly `sizeCap` bytes. -/
def bigFile : Bytes := List.replicate sizeCap 0

/-- A data directory holding only that file. -/
def bigFS : Store DNode := [(("/app/data/big.txt").toList, DNode.file bigFile)]

/-- A data directory with two existing files, for the rename witness. -/
def dataFSW : Store DNode :=
  [(("/app/data/a.txt").toList, DNode.file [1]),
   (("/app/data/b.txt").toList, DNode.file [2])]

/-- A data directory with one small text file, for the read witness. -/
def smallFS : Store DNode := [(("/app/data/s.txt").toList, DNode.file [104, 105])]

/-- The listing example of the specification: `b.txt` (file), `a` (dir),
`c` (dir), in raw directory order. -/
def exEntries : List Entry :=
  [{ name := ("b.txt").toList, isDirectory := false, size := 10, modified := 0 },
   { name := ("a").toList, isDirectory := true, size := 0, modified := 0 },
   { name := ("c").toList, isDirectory := true, size := 0, modified := 0 }]

/-! ## Helper lemmas on the string operations -/

theorem startsWithL_iff (pat s : Name) : startsWithL pat s = true ↔ ∃ t, s = pat ++ t := by
  unfold startsWithL
  rw [beq_iff_eq]
  constructor
  · intro h
    refine ⟨s.drop pat.length, ?_⟩
    conv_lhs => rw [← List.take_append_drop pat.length s]
    rw [h]
  · rintro ⟨t, rfl⟩
    exact List.take_left pat t

theorem endsWithL_iff (suf s : Name) : endsWithL suf s = true ↔ ∃ p, s = p ++ suf := by
  unfold endsWithL
  rw [beq_iff_eq]
  constructor
  · intro h
    refine ⟨s.take (s.length - suf.length), ?_⟩
    conv_lhs => rw [← List.take_append_drop (s.length - suf.length) s]
    rw [h]
  · rintro ⟨p, rfl⟩
    have hl : (p ++ suf).length - suf.length = p.length := by
      simp [List.length_append]
    rw [hl]
    exact List.drop_left p suf

theorem endsWithL_append (suf p : Name) : endsWithL suf (p ++ suf) = true :=
  (endsWithL_iff suf (p ++ suf)).mpr ⟨p, rfl⟩

theorem jar_not_dis (p : Name) : endsWithL disSuf (p ++ jarSuf) = false := by
  cases hb : endsWithL disSuf (p ++ jarSuf) with
  | false => rfl
  | true =>
    exfalso
    obtain ⟨q, hq⟩ := (endsWithL_iff _ _).mp hb
    have hlen : p.length + 4 = q.length + 13 := by
      have := congrArg List.length hq
      simpa [List.length_append, jarSuf, disSuf] using this
    have h1 : (p ++ jarSuf).drop p.length = jarSuf := List.drop_left p jarSuf
    have h2 : (q ++ disSuf).drop (q.length + 9) = disSuf.drop 9 := by
      rw [List.drop_append_eq_append_drop]
      have hq9 : q.drop (q.length + 9) = [] := List.drop_eq_nil_of_le (by omega)
      have hs9 : q.length + 9 - q.length = 9 := by omega
      rw [hq9, hs9, List.nil_append]
    have hp : p.length = q.length + 9 := by omega
    rw [hq, hp, h2] at h1
    exact absurd h1.symm (by decide)

/-! ## C1 — the Path Confiner's containment check -/

/-- C1: evidence of the code bug.  `safePath` with root `/app/data` accepts
the relative path `../data2`, which resolves to the sibling `/app/data2`,
because the code's containment test is a naive string-prefix check
(`full.startsWith(path.resolve(base))`); the boundary-aware check the
specification demands (`specConfined`) rejects that very path. -/
theorem safePath_accepts_sibling :
    safePath dataRootSegs ("../data2".toList) = some ("/app/data2".toList)
  ∧ specConfined (pathStr dataRootSegs) ("/app/data2".toList) = false := by
  constructor <;> decide

/-! ## C3 — toggle silently overwrites the opposite form -/

/-- C3: evidence of the code bug.  With both `x.jar` and `x.jar.disabled`
present (contents `[1]` and `[2]`), toggling `x.jar` renames it onto
`x.jar.disabled` with no existence check; `renameSync` overwrite semantics
silently destroy the pre-existing disabled file, and the directory shrinks
from two entries to one. -/
theorem toggle_overwrites_opposite_form :
    toggleMod modsBothForms ("x.jar".toList)
      = (.renamed ("x.jar.disabled".toList), [(("x.jar.disabled").toList, [1])])
  ∧ lookupS modsBothForms ("x.jar.disabled".toList) = some [2]
  ∧ modsBothForms.length = 2 := by
  refine ⟨?_, ?_, ?_⟩ <;> decide

/-! ## C5 — mod delete joins traversal names -/

/-- C5: evidence of the code bug.  The mod delete handler joins the caller's
name to the mod root with `path.join` and never rejects names containing a
path separator: the name `../secret.txt` resolves to `/app/secret.txt`,
outside the mod root `/app/mods`, and the handler unlinks it. -/
theorem deleteMod_joins_traversal_path :
    deleteModHandler modsRootSegs [(("/app/secret.txt").toList, [7])] ("../secret.txt".toList)
      = (.deleted ("/app/secret.txt".toList), [])
  ∧ specConfined (pathStr modsRootSegs) ("/app/secret.txt".toList) = false := by
  constructor <;> decide

/-! ## C2 — toggle is not an involution in general -/

/-- C2 counterexample: the mod file `a.jar.disabled.jar` (which ends in the
archive extension, hence is a mod file) toggles to
`a.jar.disabled.jar.disabled`, but toggling back replaces the FIRST
occurrence of `.jar.disabled` (JavaScript `replace`), producing
`a.jar.jar.disabled` — a different name with the opposite enabled state. -/
theorem toggle_twice_changes_name :
    toggleMod [(("a.jar.disabled.jar").toList, [5])] ("a.jar.disabled.jar".toList)
      = (.renamed ("a.jar.disabled.jar.disabled".toList),
         [(("a.jar.disabled.jar.disabled").toList, [5])])
  ∧ toggleMod [(("a.jar.disabled.jar.disabled").toList, [5])]
        ("a.jar.disabled.jar.disabled".toList)
      = (.renamed ("a.jar.jar.disabled".toList), [(("a.jar.jar.disabled").toList, [5])])
  ∧ ¬ ("a.jar.jar.disabled".toList = "a.jar.disabled.jar".toList)
  ∧ modEnabled ("a.jar.disabled.jar".toList) = true
  ∧ modEnabled ("a.jar.jar.disabled".toList) = false := by
  refine ⟨?_, ?_, ?_, ?_, ?_⟩ <;> decide

/-! ## C4 — upload filter is case-insensitive, listing is not -/

/-- C4 counterexample: the upload filter lowercases the extension, so
`MOD.JAR` is accepted, yet the mod listing filters with case-sensitive
`endsWith(".jar")`, so the accepted file never appears as a Mod Entry. -/
theorem upload_uppercase_accepted_not_listed :
    modUploadAccepts ("MOD.JAR".toList) = true
  ∧ modListed ("MOD.JAR".toList) = false := by
  constructor <;> decide

/-! ## C9 — the status probe never propagates a failure -/

/-- C9: for every outcome of the status query the handler produces an HTTP
200 JSON snapshot — the success snapshot with player counts, version, motd
and latency, or the failure snapshot with `online:false` and the error
message; no outcome escapes as an error response. -/
theorem status_probe_total (o : ProbeOutcome) :
    (statusHandler o).httpStatus = 200
  ∧ (∀ s, o = .ok s → statusHandler o
        = { httpStatus := 200, online := true,
            players := some (s.playersOnline, s.playersMax),
            version := some s.version, motd := some s.motd,
            latency := some s.latency, error := none })
  ∧ (∀ m, o = .err m → statusHandler o
        = { httpStatus := 200, online := false, players := none,
            version := none, motd := none, latency := none, error := some m }) := by
  cases o with
  | ok s =>
    refine ⟨rfl, ?_, ?_⟩
    · intro s' hs
      cases hs
      rfl
    · intro m hm
      cases hm
  | err m =>
    refine ⟨rfl, ?_, ?_⟩
    · intro s hs
      cases hs
    · intro m' hm
      cases hm
      rfl

/-- Witness for C9 at a concrete failed probe. -/
theorem status_probe_total_witness :
    (statusHandler (.err (("timeout").toList))).httpStatus = 200
  ∧ statusHandler (.err (("timeout").toList))
      = { httpStatus := 200, online := false, players := none,
          version := none, motd := none, latency := none,
          error := some (("timeout").toList) } := by
  have h := status_probe_total (.err (("timeout").toList))
  exact ⟨h.1, h.2.2 _ rfl⟩

/-! ## C7 — rename error contract -/

/-- C7: the rename handler checks both paths through the Path Confiner
before touching the filesystem (`InvalidPath` when either fails, state
unchanged), then signals `NotFound` when the old path is absent and
`AlreadyExists` when the new path already exists — in both error cases the
returned filesystem is exactly the input one, so the source entry and the
pre-existing target are untouched. -/
theorem rename_error_contract (root : List Name) (fs : Store DNode) (oldRel newRel : Name) :
    ((safePath root oldRel = none ∨ safePath root newRel = none) →
        renameHandler root fs oldRel newRel = (.invalidPath, fs))
  ∧ (∀ o n, safePath root oldRel = some o → safePath root newRel = some n →
        (existsS fs o = false → renameHandler root fs oldRel newRel = (.notFound, fs))
      ∧ (existsS fs o = true → existsS fs n = true →
            renameHandler root fs oldRel newRel = (.alreadyExists, fs))) := by
  constructor
  · intro h
    unfold renameHandler
    cases h1 : safePath root oldRel with
    | none => rfl
    | some o =>
      cases h2 : safePath root newRel with
      | none => rfl
      | some n =>
        exfalso
        rcases h with h | h
        · rw [h1] at h
          exact Option.noConfusion h
        · rw [h2] at h
          exact Option.noConfusion h
  · intro o n h1 h2
    have hred : renameHandler root fs oldRel newRel
        = if existsS fs o = false then (.notFound, fs)
          else if existsS fs n = true then (.alreadyExists, fs)
          else (.renamed, renameStore fs o n) := by
      unfold renameHandler
      rw [h1, h2]
    rw [hred]
    constructor
    · intro hex
      rw [if_pos hex]
    · intro hexo hexn
      rw [if_neg (by rw [hexo]; simp), if_pos (by rw [hexn])]

/-- Witness for C7: renaming `a.txt` onto the existing `b.txt` answers
`AlreadyExists` and leaves the directory untouched. -/
theorem rename_error_contract_witness :
    renameHandler dataRootSegs dataFSW ("a.txt".toList) ("b.txt".toList)
      = (.alreadyExists, dataFSW) := by
  have h := rename_error_contract dataRootSegs dataFSW ("a.txt".toList) ("b.txt".toList)
  exact (h.2 (("/app/data/a.txt").toList) (("/app/data/b.txt").toList)
      (by decide) (by decide)).2 (by decide) (by decide)

/-! ## C6 — the read-size cap is strict -/

theorem readFileHandler_eq (decode : Bytes → Option Name) (root : List Name)
    (fs : Store DNode) (rel p : Name) (bs : Bytes)
    (hsp : safePath root rel = some p) (hf : lookupS fs p = some (.file bs)) :
    readFileHandler decode root fs rel
      = if sizeCap < bs.length then .tooLarge
        else
          match decode bs with
          | some t => .content t (basename p)
          | none => .notText := by
  unfold readFileHandler
  simp only [hsp]
  rw [hf]

/-- C6 counterexample: a file whose size is exactly the 512 KiB cap
(524288 bytes) is NOT rejected — the code tests `size > 1024*512` strictly,
so the at-cap file is returned inline, contradicting "at or over the cap
signals TooLarge". -/
theorem read_at_cap_not_too_large :
    readFileHandler (fun _ => some []) dataRootSegs bigFS ("big.txt".toList)
      = .content [] ("big.txt".toList)
  ∧ bigFile.length = sizeCap := by
  constructor
  · have hsp : safePath dataRootSegs ("big.txt".toList)
        = some (("/app/data/big.txt").toList) := by decide
    have hf : lookupS bigFS (("/app/data/big.txt").toList) = some (.file bigFile) := by
      unfold bigFS
      simp [lookupS]
    rw [readFileHandler_eq (fun _ => some []) dataRootSegs bigFS ("big.txt".toList)
        (("/app/data/big.txt").toList) bigFile hsp hf]
    rw [if_neg (by simp [bigFile])]
    have hb : basename (("/app/data/big.txt").toList) = ("big.txt".toList) := by decide
    rw [hb]
  · simp [bigFile]

/-- C6 amended: for a confined path naming a regular file, `readFile`
signals `TooLarge` exactly when the file's size strictly exceeds the
512 KiB cap; when the size is at or under the cap (and the bytes decode as
text) the content is returned inline. -/
theorem readFile_cap_strict (decode : Bytes → Option Name) (root : List Name)
    (fs : Store DNode) (rel p : Name) (bs : Bytes)
    (hsp : safePath root rel = some p) (hf : lookupS fs p = some (.file bs)) :
    (readFileHandler decode root fs rel = .tooLarge ↔ sizeCap < bs.length)
  ∧ (bs.length ≤ sizeCap → ∀ t, decode bs = some t →
      readFileHandler decode root fs rel = .content t (basename p)) := by
  rw [readFileHandler_eq decode root fs rel p bs hsp hf]
  constructor
  · by_cases h : sizeCap < bs.length
    · rw [if_pos h]
      simp [h]
    · rw [if_neg h]
      simp only [h, iff_false]
      cases hd : decode bs <;> simp
  · intro hle t ht
    rw [if_neg (by omega), ht]

/-- Witness for C6 at a two-byte file. -/
theorem readFile_cap_strict_witness :
    (readFileHandler (fun _ => some (("hi").toList)) dataRootSegs smallFS ("s.txt".toList)
        = .tooLarge
      ↔ sizeCap < ([104, 105] : Bytes).length)
  ∧ readFileHandler (fun _ => some (("hi").toList)) dataRootSegs smallFS ("s.txt".toList)
      = .content (("hi").toList) (basename (("/app/data/s.txt").toList)) := by
  have h := readFile_cap_strict (fun _ => some (("hi").toList)) dataRootSegs smallFS
    ("s.txt".toList) (("/app/data/s.txt").toList) [104, 105] (by decide) (by decide)
  exact ⟨h.1, h.2 (by decide) _ rfl⟩

/-! ## C4 — the upload filter and the listing -/

theorem takeWhile_middle (p : Char → Bool) (a : Name) (d : Char) (b : Name)
    (ha : ∀ c ∈ a, p c = true) (hd : p d = false) :
    (a ++ d :: b).takeWhile p = a := by
  induction a with
  | nil => simp [List.takeWhile_cons, hd]
  | cons x a ih =>
    have hx : p x = true := ha x (by simp)
    simp only [List.cons_append, List.takeWhile_cons, hx, if_true]
    rw [ih (fun c hc => ha c (by simp [hc]))]

theorem extname_disabled (q : Name) : extname (q ++ disSuf) = disMark := by
  unfold extname
  rw [List.reverse_append]
  have hsplit : disSuf.reverse ++ q.reverse
      = (['d', 'e', 'l', 'b', 'a', 's', 'i', 'd'] : Name)
        ++ '.' :: ((['r', 'a', 'j', '.'] : Name) ++ q.reverse) := by
    have hrev : disSuf.reverse
        = (['d', 'e', 'l', 'b', 'a', 's', 'i', 'd'] : Name)
          ++ '.' :: (['r', 'a', 'j', '.'] : Name) := by decide
    rw [hrev, List.append_assoc]
    rfl
  rw [hsplit]
  rw [takeWhile_middle _ _ '.' _ (by decide) (by decide)]
  rw [if_pos ?hlt]
  case hlt =>
    simp [List.length_append, disSuf]
  decide

/-- C4 amended: every file accepted by the upload filter has an extension
that lowercases to `.jar` (so `.JAR` variants are accepted too, not `.jar`
exactly); no accepted file is in the disabled form; and an accepted file
whose name ends in lowercase `.jar` is recognised by the listing as a Mod
Entry with `enabled = true`. -/
theorem upload_filter_spec (n : Name) (h : modUploadAccepts n = true) :
    ((extname n).map Char.toLower) = jarSuf
  ∧ endsWithL disSuf n = false
  ∧ (endsWithL jarSuf n = true → modListed n = true ∧ modEnabled n = true) := by
  refine ⟨eq_of_beq h, ?_, ?_⟩
  · cases hs : endsWithL disSuf n with
    | false => rfl
    | true =>
      exfalso
      obtain ⟨q, hq⟩ := (endsWithL_iff _ _).mp hs
      have hx := extname_disabled q
      rw [← hq] at hx
      have h' := eq_of_beq h
      rw [hx] at h'
      exact absurd h' (by decide)
  · intro hj
    constructor
    · simp [modListed, hj]
    · exact hj

/-- Witness for C4 at `coolmod.jar`. -/
theorem upload_filter_spec_witness :
    ((extname (("coolmod.jar").toList)).map Char.toLower) = jarSuf
  ∧ modListed (("coolmod.jar").toList) = true := by
  have h := upload_filter_spec (("coolmod.jar").toList) (by decide)
  exact ⟨h.1, (h.2.2 (by decide)).1⟩

/-! ## Association-list lemmas for the frame theorem -/

theorem lookupS_append {β : Type} (l r : Store β) (m : Name) :
    lookupS (l ++ r) m
      = match lookupS l m with
        | some v => some v
        | none => lookupS r m := by
  induction l with
  | nil => simp [lookupS]
  | cons e l ih =>
    obtain ⟨k, v⟩ := e
    by_cases hk : k = m
    · simp [lookupS, hk]
    · simp [lookupS, hk, ih]

theorem lookupS_filter_ne {β : Type} (fs : Store β) (o n m : Name)
    (h1 : ¬ m = o) (h2 : ¬ m = n) :
    lookupS (fs.filter fun e => !(e.1 == o) && !(e.1 == n)) m = lookupS fs m := by
  induction fs with
  | nil => rfl
  | cons e fs ih =>
    obtain ⟨k, v⟩ := e
    rw [List.filter_cons]
    by_cases hko : k = o
    · have hom : ¬ o = m := fun hh => h1 hh.symm
      simp [hko, lookupS, hom, ih]
    · by_cases hkn : k = n
      · have hnm : ¬ n = m := fun hh => h2 hh.symm
        simp [hkn, hko, lookupS, hnm, ih]
      · by_cases hkm : k = m
        · simp [hko, hkn, lookupS, hkm, h1, h2]
        · simp [hko, hkn, lookupS, hkm, ih]

theorem lookupS_filter_out {β : Type} (fs : Store β) (o n m : Name)
    (h : m = o ∨ m = n) :
    lookupS (fs.filter fun e => !(e.1 == o) && !(e.1 == n)) m = none := by
  induction fs with
  | nil => rfl
  | cons e fs ih =>
    obtain ⟨k, v⟩ := e
    rw [List.filter_cons]
    by_cases hko : k = o
    · simp [hko, ih]
    · by_cases hkn : k = n
      · simp [hkn, hko, ih]
      · have hkm : ¬ k = m := by
          rcases h with rfl | rfl
          · exact hko
          · exact hkn
        simp [hko, hkn, lookupS, hkm, ih]

theorem lookupS_eq_none_iff {β : Type} (fs : Store β) (m : Name) :
    lookupS fs m = none ↔ ∀ e ∈ fs, ¬ e.1 = m := by
  induction fs with
  | nil => simp [lookupS]
  | cons e fs ih =>
    obtain ⟨k, v⟩ := e
    by_cases hk : k = m
    · simp [lookupS, hk]
    · simp [lookupS, hk, ih]

theorem filter_two_eq_one {β : Type} (fs : Store β) (o n : Name)
    (h : lookupS fs n = none) :
    (fs.filter fun e => !(e.1 == o) && !(e.1 == n))
      = fs.filter fun e => !(e.1 == o) := by
  apply List.filter_congr
  intro a ha
  have hn : ¬ a.1 = n := (lookupS_eq_none_iff fs n).mp h a ha
  simp [hn]

theorem length_filter_remove {β : Type} (fs : Store β) (name : Name) (d : β)
    (hl : lookupS fs name = some d) (hnd : (fs.map Prod.fst).Nodup) :
    (fs.filter fun e => !(e.1 == name)).length + 1 = fs.length := by
  induction fs with
  | nil => simp [lookupS] at hl
  | cons e fs ih =>
    obtain ⟨k, v⟩ := e
    rw [List.filter_cons]
    have hnd' : (fs.map Prod.fst).Nodup := (List.nodup_cons.mp (by simpa using hnd)).2
    by_cases hk : k = name
    · subst hk
      have hmem : k ∉ fs.map Prod.fst := (List.nodup_cons.mp (by simpa using hnd)).1
      have hrest : fs.filter (fun e => !(e.1 == k)) = fs := by
        rw [List.filter_eq_self]
        intro a ha
        have : ¬ a.1 = k := by
          intro hh
          exact hmem (hh ▸ List.mem_map_of_mem Prod.fst ha)
        simp [this]
      simp [hrest]
    · have hl' : lookupS fs name = some d := by
        simpa [lookupS, hk] using hl
      simp [hk, ih hl' hnd']

/-! ## Length change of a successful toggle rename -/

theorem replaceFirst_length (s pat rep : Name) (hpat : ¬ pat = [])
    (h : ∃ p c, s = p ++ pat ++ c) :
    (replaceFirst s pat rep).length + pat.length = s.length + rep.length := by
  induction s with
  | nil =>
    obtain ⟨p, c, hpc⟩ := h
    cases pat with
    | nil => exact absurd rfl hpat
    | cons x xs =>
      exfalso
      have := congrArg List.length hpc
      simp [List.length_append] at this
      omega
  | cons a s ih =>
    by_cases hs : startsWithL pat (a :: s) = true
    · simp only [replaceFirst]
      rw [if_pos hs]
      obtain ⟨t, ht⟩ := (startsWithL_iff pat (a :: s)).mp hs
      have hle : pat.length ≤ (a :: s).length := by
        rw [ht]
        simp [List.length_append]
      simp only [List.length_append, List.length_drop]
      omega
    · simp only [replaceFirst]
      rw [if_neg hs]
      obtain ⟨p, c, hpc⟩ := h
      cases p with
      | nil =>
        exfalso
        apply hs
        rw [startsWithL_iff]
        exact ⟨c, by simpa using hpc⟩
      | cons y p' =>
        have hcons : a :: s = y :: (p' ++ pat ++ c) := by simpa using hpc
        have hseq : s = p' ++ pat ++ c := by injection hcons
        have := ih ⟨p', c, hseq⟩
        simp only [List.length_cons]
        omega

theorem toggleName_ne (n m : Name) (h : toggleName n = some m) : ¬ m = n := by
  unfold toggleName at h
  by_cases hd : endsWithL disSuf n = true
  · rw [if_pos hd] at h
    injection h with h'
    obtain ⟨p, hp⟩ := (endsWithL_iff disSuf n).mp hd
    have hocc : ∃ q c, n = q ++ disSuf ++ c := ⟨p, [], by simp [hp]⟩
    have hlen := replaceFirst_length n disSuf jarSuf (by decide) hocc
    intro hmn
    rw [h', hmn] at hlen
    have hd13 : disSuf.length = 13 := by decide
    have hj4 : jarSuf.length = 4 := by decide
    omega
  · rw [if_neg hd] at h
    by_cases hj : endsWithL jarSuf n = true
    · rw [if_pos hj] at h
      injection h with h'
      intro hmn
      have := congrArg List.length h'
      rw [hmn] at this
      simp [List.length_append, disMark] at this
    · rw [if_neg hj] at h
      cases h

/-! ## C10 — a fresh-target toggle changes only the targeted entry -/

/-- C10: provided the computed new name is not already present, a
successful toggle moves exactly the targeted entry: the new name holds
precisely the old entry's bytes (content and hence size preserved), the old
name is gone, every other name resolves to exactly what it did before, and
the number of entries is unchanged (nothing created, nothing destroyed). -/
theorem toggle_frame (fs : Store Bytes) (name nn : Name) (fs' : Store Bytes)
    (hkeys : (fs.map Prod.fst).Nodup)
    (hres : toggleMod fs name = (.renamed nn, fs'))
    (hfresh : lookupS fs nn = none) :
    lookupS fs' nn = lookupS fs name
  ∧ lookupS fs' name = none
  ∧ (∀ m, ¬ m = name → ¬ m = nn → lookupS fs' m = lookupS fs m)
  ∧ fs'.length = fs.length := by
  unfold toggleMod at hres
  by_cases hex : existsS fs name = false
  · rw [if_pos hex] at hres
    exact absurd (congrArg Prod.fst hres) (by simp)
  · rw [if_neg hex] at hres
    have hsome : ∃ d, lookupS fs name = some d := by
      unfold existsS at hex
      cases hl : lookupS fs name
      · rw [hl] at hex
        simp at hex
      · exact ⟨_, rfl⟩
    obtain ⟨d, hd⟩ := hsome
    cases ht : toggleName name with
    | none =>
      rw [ht] at hres
      exact absurd (congrArg Prod.fst hres) (by simp)
    | some newName =>
      rw [ht] at hres
      have hnn : newName = nn := by simpa using congrArg Prod.fst hres
      subst hnn
      have hfs' : fs'
          = (fs.filter fun e => !(e.1 == name) && !(e.1 == newName)) ++ [(newName, d)] := by
        have hsnd := congrArg Prod.snd hres
        simp at hsnd
        rw [← hsnd]
        unfold renameStore
        rw [hd]
      have hne : ¬ newName = name := toggleName_ne name newName ht
      refine ⟨?_, ?_, ?_, ?_⟩
      · rw [hfs', lookupS_append,
          lookupS_filter_out fs name newName newName (Or.inr rfl)]
        simp [lookupS, hd]
      · rw [hfs', lookupS_append,
          lookupS_filter_out fs name newName name (Or.inl rfl)]
        simp [lookupS, hne]
      · intro m hm1 hm2
        rw [hfs', lookupS_append, lookupS_filter_ne fs name newName m hm1 hm2]
        have hnm : ¬ newName = m := fun hh => hm2 hh.symm
        cases hmm : lookupS fs m with
        | none => simp [lookupS, hnm]
        | some v => rfl
      · rw [hfs', List.length_append, filter_two_eq_one fs name newName hfresh]
        have := length_filter_remove fs name d hd hkeys
        simp only [List.length_cons, List.length_nil]
        omega

/-- Witness for C10: toggling `coolmod.jar` in a directory that also holds
`other.jar` moves the bytes to `coolmod.jar.disabled` and leaves
`other.jar` untouched. -/
theorem toggle_frame_witness :
    lookupS [(("other.jar").toList, ([2] : Bytes)),
             (("coolmod.jar.disabled").toList, ([1] : Bytes))]
        (("coolmod.jar.disabled").toList)
      = lookupS modsW (("coolmod.jar").toList)
  ∧ lookupS [(("other.jar").toList, ([2] : Bytes)),
             (("coolmod.jar.disabled").toList, ([1] : Bytes))]
        (("other.jar").toList)
      = lookupS modsW (("other.jar").toList) := by
  have h := toggle_frame modsW (("coolmod.jar").toList) (("coolmod.jar.disabled").toList)
      [(("other.jar").toList, ([2] : Bytes)), (("coolmod.jar.disabled").toList, ([1] : Bytes))]
      (by decide) (by decide) (by decide)
  exact ⟨h.1, h.2.2.1 _ (by decide) (by decide)⟩

/-! ## C8 — deterministic listing order -/

theorem lexLe_trans : ∀ a b c : Name, lexLe a b = true → lexLe b c = true → lexLe a c = true := by
  intro a
  induction a with
  | nil => intro b c _ _; rfl
  | cons x as ih =>
    intro b c hab hbc
    cases b with
    | nil => simp [lexLe] at hab
    | cons y bs =>
      cases c with
      | nil => simp [lexLe] at hbc
      | cons z cs =>
        simp only [lexLe] at hab hbc ⊢
        by_cases hxy : x = y
        · subst hxy
          rw [if_pos rfl] at hab
          by_cases hyz : x = z
          · subst hyz
            rw [if_pos rfl] at hbc ⊢
            exact ih bs cs hab hbc
          · rw [if_neg hyz] at hbc ⊢
            exact hbc
        · rw [if_neg hxy] at hab
          have hlt1 : x < y := of_decide_eq_true hab
          by_cases hyz : y = z
          · subst hyz
            rw [if_neg hxy]
            exact hab
          · rw [if_neg hyz] at hbc
            have hlt2 : y < z := of_decide_eq_true hbc
            have hlt : x < z := lt_trans hlt1 hlt2
            rw [if_neg (ne_of_lt hlt)]
            exact decide_eq_true hlt

theorem lexLe_total : ∀ a b : Name, lexLe a b = true ∨ lexLe b a = true := by
  intro a
  induction a with
  | nil => intro b; left; rfl
  | cons x as ih =>
    intro b
    cases b with
    | nil => right; rfl
    | cons y bs =>
      simp only [lexLe]
      by_cases hxy : x = y
      · subst hxy
        rw [if_pos rfl, if_pos rfl]
        exact ih bs
      · rw [if_neg hxy, if_neg (Ne.symm hxy)]
        rcases lt_or_gt_of_ne hxy with h | h
        · left
          exact decide_eq_true h
        · right
          exact decide_eq_true h

/-- C8: for any name comparison that is transitive and total (the locale
comparison is), the listing sort returns a permutation of the entries in
which every directory precedes every file, each of the two groups is
internally sorted by name, and on the specification's example
`{b.txt (file), a (dir), c (dir)}` the resulting order is
`[a, c, b.txt]`. -/
theorem listing_sorted (nle : Name → Name → Bool)
    (htr : ∀ a b c, nle a b = true → nle b c = true → nle a c = true)
    (hto : ∀ a b, nle a b = true ∨ nle b a = true)
    (l : List Entry) :
    (sortEntries nle l).Perm l
  ∧ List.Pairwise (fun a b => b.isDirectory = true → a.isDirectory = true) (sortEntries nle l)
  ∧ List.Pairwise (fun a b => nle a.name b.name = true)
      ((sortEntries nle l).filter (fun e => e.isDirectory))
  ∧ List.Pairwise (fun a b => nle a.name b.name = true)
      ((sortEntries nle l).filter (fun e => !e.isDirectory))
  ∧ (sortEntries lexLe exEntries).map (fun e => e.name)
      = [("a".toList), ("c".toList), ("b.txt".toList)] := by
  haveI htot : IsTotal Entry (fun a b => entryLE nle a b = true) := by
    constructor
    intro a b
    cases ha : a.isDirectory <;> cases hb : b.isDirectory <;>
      simp [entryLE, ha, hb]
    · exact hto a.name b.name
    · exact hto a.name b.name
  haveI htrans : IsTrans Entry (fun a b => entryLE nle a b = true) := by
    constructor
    intro a b c hab hbc
    cases ha : a.isDirectory <;> cases hb : b.isDirectory <;> cases hc : c.isDirectory <;>
      simp [entryLE, ha, hb, hc] at hab hbc ⊢ <;>
      exact htr _ _ _ hab hbc
  have hs : List.Pairwise (fun a b => entryLE nle a b = true) (sortEntries nle l) :=
    List.sorted_insertionSort (fun a b => entryLE nle a b = true) l
  refine ⟨List.perm_insertionSort _ l, ?_, ?_, ?_, by decide⟩
  · refine hs.imp ?_
    intro a b hab hbdir
    cases hadir : a.isDirectory with
    | true => rfl
    | false =>
      exfalso
      simp [entryLE, hadir, hbdir] at hab
  · refine (hs.filter (fun e => e.isDirectory)).imp_of_mem ?_
    intro a b ha hb hab
    have ha' : a.isDirectory = true := by simpa using (List.mem_filter.mp ha).2
    have hb' : b.isDirectory = true := by simpa using (List.mem_filter.mp hb).2
    simpa [entryLE, ha', hb'] using hab
  · refine (hs.filter (fun e => !e.isDirectory)).imp_of_mem ?_
    intro a b ha hb hab
    have ha' : a.isDirectory = false := by simpa using (List.mem_filter.mp ha).2
    have hb' : b.isDirectory = false := by simpa using (List.mem_filter.mp hb).2
    simpa [entryLE, ha', hb'] using hab

/-- Witness for C8 at the specification's example listing. -/
theorem listing_sorted_witness :
    List.Pairwise (fun a b => b.isDirectory = true → a.isDirectory = true)
      (sortEntries lexLe exEntries) :=
  (listing_sorted lexLe lexLe_trans lexLe_total exEntries).2.1

/-! ## C2 — toggle IS an involution when `.jar.disabled` occurs only as a suffix -/

theorem replaceFirst_first_occ (pat rep p c : Name) (hpat : ¬ pat = [])
    (h : ∀ i, i < p.length → startsWithL pat ((p ++ pat ++ c).drop i) = false) :
    replaceFirst (p ++ pat ++ c) pat rep = p ++ rep ++ c := by
  induction p with
  | nil =>
    cases hp : pat with
    | nil => exact absurd hp hpat
    | cons x xs =>
      subst hp
      have hcond : startsWithL (x :: xs) (x :: (xs ++ c)) = true := by
        rw [startsWithL_iff]
        exact ⟨c, by rw [List.cons_append]⟩
      calc replaceFirst ([] ++ (x :: xs) ++ c) (x :: xs) rep
          = replaceFirst (x :: (xs ++ c)) (x :: xs) rep := by
            rw [List.nil_append, List.cons_append]
        _ = rep ++ (x :: (xs ++ c)).drop (x :: xs).length := by
            simp only [replaceFirst]
            rw [if_pos hcond]
        _ = rep ++ c := by
            rw [← List.cons_append, List.drop_left]
        _ = [] ++ rep ++ c := by rw [List.nil_append]
  | cons y p' ih =>
    have hshape : (y :: p') ++ pat ++ c = y :: (p' ++ pat ++ c) := by
      rw [List.cons_append, List.cons_append]
    have h0 : startsWithL pat (y :: (p' ++ pat ++ c)) = false := by
      have hh := h 0 (by simp)
      rw [hshape] at hh
      simpa using hh
    have hrec : replaceFirst (p' ++ pat ++ c) pat rep = p' ++ rep ++ c := by
      apply ih
      intro i hi
      have hh := h (i + 1) (by simp only [List.length_cons]; omega)
      rw [hshape] at hh
      simpa using hh
    calc replaceFirst ((y :: p') ++ pat ++ c) pat rep
        = replaceFirst (y :: (p' ++ pat ++ c)) pat rep := by rw [hshape]
      _ = y :: replaceFirst (p' ++ pat ++ c) pat rep := by
          simp only [replaceFirst]
          rw [if_neg (by rw [h0]; decide)]
      _ = y :: (p' ++ rep ++ c) := by rw [hrec]
      _ = (y :: p') ++ rep ++ c := by rw [List.cons_append, List.cons_append]

theorem occA (n p : Name) (hp : n = p ++ disSuf) (hocc : onlySuffixOcc n = true) :
    ∀ i, i < p.length → startsWithL disSuf ((p ++ disSuf ++ []).drop i) = false := by
  intro i hi
  rw [List.append_nil, ← hp]
  cases hs : startsWithL disSuf (n.drop i) with
  | false => rfl
  | true =>
    exfalso
    have hlen : n.length = p.length + 13 := by
      rw [hp]
      simp [List.length_append, disSuf]
    have hmem : i ∈ List.range n.length := by
      rw [List.mem_range]
      omega
    unfold onlySuffixOcc at hocc
    rw [List.all_eq_true] at hocc
    have hfi := hocc i hmem
    rw [hs] at hfi
    simp at hfi
    have hd13 : disSuf.length = 13 := by decide
    omega

theorem occB_none (n : Name) (hd : ¬ endsWithL disSuf n = true)
    (hocc : onlySuffixOcc n = true) :
    ∀ i, startsWithL disSuf (n.drop i) = false := by
  intro i
  by_cases hi : i < n.length
  · cases hs : startsWithL disSuf (n.drop i) with
    | false => rfl
    | true =>
      exfalso
      have hmem : i ∈ List.range n.length := by
        rw [List.mem_range]
        omega
      unfold onlySuffixOcc at hocc
      rw [List.all_eq_true] at hocc
      have hfi := hocc i hmem
      rw [hs] at hfi
      simp at hfi
      obtain ⟨t, ht⟩ := (startsWithL_iff _ _).mp hs
      have hulen : (n.drop i).length = n.length - i := List.length_drop i n
      have hd13 : disSuf.length = 13 := by decide
      have htl : t.length = 0 := by
        have hlent := congrArg List.length ht
        rw [hulen] at hlent
        simp only [List.length_append] at hlent
        omega
      have ht0 : t = [] := List.eq_nil_of_length_eq_zero htl
      subst ht0
      apply hd
      rw [endsWithL_iff]
      refine ⟨n.take i, ?_⟩
      conv_lhs => rw [← List.take_append_drop i n]
      rw [ht, List.append_nil]
  · have hnil : n.drop i = [] := List.drop_eq_nil_of_le (by omega)
    rw [hnil]
    decide

theorem occB (n b : Name) (hb : n = b ++ jarSuf)
    (hnon : ∀ i, startsWithL disSuf (n.drop i) = false) :
    ∀ i, i < b.length → startsWithL disSuf ((b ++ disSuf ++ []).drop i) = false := by
  intro i hi
  rw [List.append_nil]
  have hbd : b ++ disSuf = n ++ disMark := by
    rw [hb, List.append_assoc]
    have hjd : jarSuf ++ disMark = disSuf := by decide
    rw [hjd]
  rw [hbd]
  have hlen : n.length = b.length + 4 := by
    rw [hb]
    simp [List.length_append, jarSuf]
  have hdrop : (n ++ disMark).drop i = n.drop i ++ disMark := by
    rw [List.drop_append_eq_append_drop]
    have hz : i - n.length = 0 := by omega
    rw [hz, List.drop_zero]
  rw [hdrop]
  cases hs : startsWithL disSuf (n.drop i ++ disMark) with
  | false => rfl
  | true =>
    exfalso
    obtain ⟨t, ht⟩ := (startsWithL_iff _ _).mp hs
    have hulen : (n.drop i).length = n.length - i := List.length_drop i n
    have hd13 : disSuf.length = 13 := by decide
    by_cases hk : disSuf.length ≤ (n.drop i).length
    · have hobs : (n.drop i ++ disMark).take disSuf.length
          = (n.drop i).take disSuf.length := by
        rw [List.take_append_eq_append_take]
        have hz : disSuf.length - (n.drop i).length = 0 := by omega
        rw [hz]
        simp
      have hds : (n.drop i ++ disMark).take disSuf.length = disSuf := by
        rw [ht]
        exact List.take_left disSuf t
      have hsw : startsWithL disSuf (n.drop i) = true := by
        unfold startsWithL
        rw [beq_iff_eq, ← hobs, hds]
      rw [hnon i] at hsw
      exact Bool.noConfusion hsw
    · have h1 : (n.drop i ++ disMark).take (n.drop i).length = n.drop i :=
        List.take_left _ _
      have h2 : (disSuf ++ t).take (n.drop i).length
          = disSuf.take (n.drop i).length := by
        rw [List.take_append_eq_append_take]
        have hz : (n.drop i).length - disSuf.length = 0 := by omega
        rw [hz]
        simp
      rw [ht, h2] at h1
      have hjar : endsWithL jarSuf (n.drop i) = true := by
        rw [hb]
        have hdb : (b ++ jarSuf).drop i = b.drop i ++ jarSuf := by
          rw [List.drop_append_eq_append_drop]
          have hz : i - b.length = 0 := by omega
          rw [hz, List.drop_zero]
        rw [hdb]
        exact endsWithL_append jarSuf (b.drop i)
      rw [← h1] at hjar
      obtain ⟨k, hkk⟩ : ∃ k, (n.drop i).length = k := ⟨_, rfl⟩
      rw [hkk] at hjar hulen
      rw [hd13, hkk] at hk
      have hk5 : 5 ≤ k := by omega
      have hk12 : k ≤ 12 := by omega
      interval_cases k <;> exact absurd hjar (by decide)

/-- C2 amended: for every mod name in which the substring `.jar.disabled`
occurs only as the name's own suffix (if at all), applying toggle and then
toggle again restores the original filename — and hence the original
enabled state.  (Without that restriction `toggle` is not an involution:
see the counterexample `a.jar.disabled.jar`, where the first-occurrence
`replace` rewrites the interior of the name.) -/
theorem toggle_involution (n : Name)
    (hmod : endsWithL jarSuf n = true ∨ endsWithL disSuf n = true)
    (hocc : onlySuffixOcc n = true) :
    ∃ m, toggleName n = some m ∧ toggleName m = some n := by
  by_cases hd : endsWithL disSuf n = true
  · obtain ⟨p, hp⟩ := (endsWithL_iff _ _).mp hd
    have hrep : replaceFirst n disSuf jarSuf = p ++ jarSuf := by
      have hA := occA n p hp hocc
      have hr := replaceFirst_first_occ disSuf jarSuf p [] (by decide) hA
      rw [List.append_nil, List.append_nil] at hr
      rw [hp]
      exact hr
    refine ⟨p ++ jarSuf, ?_, ?_⟩
    · unfold toggleName
      rw [if_pos hd, hrep]
    · unfold toggleName
      rw [if_neg (by simp [jar_not_dis p]), if_pos (endsWithL_append jarSuf p)]
      rw [List.append_assoc]
      have hjd : jarSuf ++ disMark = disSuf := by decide
      rw [hjd, ← hp]
  · have hj : endsWithL jarSuf n = true := by
      rcases hmod with h | h
      · exact h
      · exact absurd h hd
    obtain ⟨b, hb⟩ := (endsWithL_iff _ _).mp hj
    have hnon := occB_none n hd hocc
    have hB := occB n b hb hnon
    have hbd : n ++ disMark = b ++ disSuf := by
      rw [hb, List.append_assoc]
      have hjd : jarSuf ++ disMark = disSuf := by decide
      rw [hjd]
    refine ⟨n ++ disMark, ?_, ?_⟩
    · unfold toggleName
      rw [if_neg hd, if_pos hj]
    · unfold toggleName
      rw [if_pos (by rw [hbd]; exact endsWithL_append disSuf b)]
      have hr := replaceFirst_first_occ disSuf jarSuf b [] (by decide) hB
      rw [List.append_nil, List.append_nil] at hr
      rw [hbd, hr, ← hb]

/-- Witness for C2 at `coolmod.jar`: one toggle disables, a second toggle
restores the name. -/
theorem toggle_involution_witness :
    onlySuffixOcc ("coolmod.jar".toList) = true
  ∧ ∃ m, toggleName ("coolmod.jar".toList) = some m
      ∧ toggleName m = some ("coolmod.jar".toList) :=
  ⟨by decide, toggle_involution ("coolmod.jar".toList) (Or.inl (by decide)) (by decide)⟩

end MCManager
